import Mathlib

/-
  Shallow embedding of the HDFStore engine in pandas/io/pytables.py.

  Each definition is translated from the source file; line numbers in the
  comments refer to pandas/io/pytables.py.  Machine integers are modelled as
  Nat/Int (Python ints are arbitrary precision; the few numpy int64 values
  involved never overflow in the modelled scenarios), fallible code returns
  Except String, and warnings are collected in lists.
-/

/-! ### GenericFixed.validate_read (pytables.py 2755-2776) and the fixed-format read -/

/-- Error raised when a column selection reaches a fixed-format storer. -/
def fixed_columns_msg : String :=
  "cannot pass a column specification when reading a Fixed format store. this store must be selected in its entirety"

/-- Error raised when a where predicate reaches a fixed-format storer. -/
def fixed_where_msg : String :=
  "cannot pass a where specification when reading from a Fixed format store. this store must be selected in its entirety"

/-- GenericFixed.validate_read: raise if a columns or where keyword is not None. -/
def validate_read (columns : Option (List String)) (whereArg : Option String) :
    Except String Unit :=
  if columns.isSome then Except.error fixed_columns_msg
  else if whereArg.isSome then Except.error fixed_where_msg
  else Except.ok ()

/-- A fixed-format read: validate the keywords, then return the whole stored object. -/
def fixedRead {α : Type} (stored : α) (columns : Option (List String))
    (whereArg : Option String) : Except String α :=
  match validate_read columns whereArg with
  | Except.error e => Except.error e
  | Except.ok _ => Except.ok stored

/-! ### IndexCol.update_info (pytables.py 1962-1991) -/

/-- Lookup in the per-column info dict; a key can be present with a stored None. -/
def alGet (idx : List (String × Option String)) (k : String) : Option String :=
  match idx.lookup k with
  | some v => v
  | none => none

/-- Python `key in idx`. -/
def alMem (idx : List (String × Option String)) (k : String) : Bool :=
  (idx.lookup k).isSome

/-- Python `idx[key] = v` (replace, or append when absent). -/
def alSet (idx : List (String × Option String)) (k : String) (v : Option String) :
    List (String × Option String) :=
  match idx with
  | [] => [(k, v)]
  | (k0, v0) :: rest => if k0 = k then (k, v) :: rest else (k0, v0) :: alSet rest k v

/-- The attribute_conflict_doc warning text (pytables.py). -/
def attribute_conflict_msg (key : String) : String :=
  "the [" ++ key ++ "] attribute of the existing index is in conflict with the new [...], resetting the attribute to None"

/-- The ValueError text for a conflict on a non-resettable info key. -/
def invalid_info_msg (name key : String) : String :=
  "invalid info for [" ++ name ++ "] for [" ++ key ++ "], existing_value conflicts with new value"

/-- Result of one iteration of the update_info loop over `_info_fields`. -/
structure InfoStep where
  idx : List (String × Option String)
  selfValue : Option String
  warns : List String
deriving Repr, DecidableEq

/-- Body of the `for key in self._info_fields` loop of IndexCol.update_info. -/
def update_info_key (name key : String) (value : Option String)
    (idx : List (String × Option String)) : Except String InfoStep :=
  let existing_value := alGet idx key
  if alMem idx key ∧ value.isSome ∧ existing_value ≠ value then
    if key = "freq" ∨ key = "index_name" then
      Except.ok ⟨alSet idx key none, none, [attribute_conflict_msg key]⟩
    else
      Except.error (invalid_info_msg name key)
  else
    if value.isSome ∨ existing_value.isSome then
      Except.ok ⟨alSet idx key value, value, []⟩
    else
      Except.ok ⟨idx, value, []⟩

/-- IndexCol.update_info: fold the loop body over the column's info fields,
collecting the updated per-column attribute values and the warnings. -/
def update_info (name : String) (keys : List String) (colVals : String → Option String)
    (idx : List (String × Option String)) :
    Except String (List (String × Option String) × List (String × Option String) × List String) :=
  match keys with
  | [] => Except.ok (idx, [], [])
  | k :: ks =>
      match update_info_key name k (colVals k) idx with
      | Except.error e => Except.error e
      | Except.ok st =>
          match update_info name ks colVals st.idx with
          | Except.error e => Except.error e
          | Except.ok (idx2, ov, ws) => Except.ok (idx2, (k, st.selfValue) :: ov, st.warns ++ ws)

/-! ### DataCol.set_atom_string (pytables.py 2265-2311) and IndexCol.validate_col (1933-1951) -/

/-- The min_itemsize argument: absent, a bare integer, or a per-column dict. -/
inductive MinItemsize where
  | empty : MinItemsize
  | scalar : Nat → MinItemsize
  | dict : List (String × Nat) → MinItemsize

/-- Python `a or b` where a missing or zero value falls through. -/
def orFalsy (a : Option Nat) (b : Nat) : Nat :=
  match a with
  | some n => if n = 0 then b else n
  | none => b

/-- `int(min_itemsize.get(self.name) or min_itemsize.get("values") or 0)`
(pytables.py 2296-2300); a bare integer applies to every column. -/
def resolve_min_itemsize (mi : MinItemsize) (name : String) : Nat :=
  match mi with
  | MinItemsize.empty => 0
  | MinItemsize.scalar n => n
  | MinItemsize.dict d => orFalsy (d.lookup name) (orFalsy (d.lookup "values") 0)

/-- The truncation error of IndexCol.validate_col, naming the column and both sizes. -/
def string_col_size_msg (itemsize limit : Nat) (cname : String) : String :=
  "Trying to store a string with len [" ++ toString itemsize ++ "] in [" ++ cname ++
  "] column but this column has a limit of [" ++ toString limit ++
  "]! Consider using min_itemsize to preset the sizes on these columns"

/-- IndexCol.validate_col for a string column with an on-disk atom of width
`existingItemsize`: raise on truncation, else return the on-disk width. -/
def validate_col_string (existingItemsize itemsize : Nat) (cname : String) :
    Except String Nat :=
  if existingItemsize < itemsize then
    Except.error (string_col_size_msg itemsize existingItemsize cname)
  else Except.ok existingItemsize

/-- The itemsize computation of DataCol.set_atom_string: `probed` is the maximum
encoded string length of the block, `existing` the width of the persisted column
when appending.  Returns the chosen on-disk fixed field width. -/
def set_atom_string_itemsize (probed : Nat) (mi : MinItemsize) (name cname : String)
    (existing : Option Nat) : Except String Nat :=
  let m := resolve_min_itemsize mi name
  let itemsize := max m probed
  match existing with
  | none => Except.ok itemsize
  | some e =>
      match validate_col_string e itemsize cname with
      | Except.error msg => Except.error msg
      | Except.ok eci => Except.ok (if itemsize < eci then eci else itemsize)

/-! ## Theorems for claims C9, C8, C2 -/

/-- C9: for every fixed-format storer, a non-None column-selection argument makes
read raise, a non-None where argument makes read raise, and with both absent the
whole stored object is retrieved. -/
theorem fixedRead_rejects_selection (stored : Nat) (cols : List String) (w : String)
    (oc : Option (List String)) (ow : Option String) :
    (∃ e, fixedRead stored (some cols) ow = Except.error e)
    ∧ (∃ e, fixedRead stored oc (some w) = Except.error e)
    ∧ fixedRead stored none none = Except.ok stored := by
  refine ⟨⟨fixed_columns_msg, rfl⟩, ?_, rfl⟩
  cases oc with
  | none => exact ⟨fixed_where_msg, rfl⟩
  | some c => exact ⟨fixed_columns_msg, rfl⟩

/-- C8: during update_info, a per-column info attribute whose new value conflicts
with a previously recorded non-equal value is handled by key: for "freq" and
"index_name" a warning is emitted and both the recorded and the in-memory value
are reset to None while processing continues, and any other key raises an error. -/
theorem update_info_key_conflict (name key : String) (v : String)
    (idx : List (String × Option String))
    (hmem : alMem idx key = true) (hconf : alGet idx key ≠ some v) :
    update_info_key name key (some v) idx =
      if key = "freq" ∨ key = "index_name" then
        Except.ok ⟨alSet idx key none, none, [attribute_conflict_msg key]⟩
      else
        Except.error (invalid_info_msg name key) := by
  unfold update_info_key
  rw [if_pos ⟨hmem, rfl, hconf⟩]

theorem update_info_key_conflict_witness :
    update_info_key "index" "freq" (some "M") [("freq", some "D")] =
      Except.ok ⟨[("freq", none)], none, [attribute_conflict_msg "freq"]⟩ ∧
    update_info_key "index" "tz" (some "UTC") [("tz", some "EST")] =
      Except.error (invalid_info_msg "index" "tz") := by
  constructor
  · have h := update_info_key_conflict "index" "freq" "M" [("freq", some "D")]
      (by decide) (by decide)
    simpa using h
  · have h := update_info_key_conflict "index" "tz" "UTC" [("tz", some "EST")]
      (by decide) (by decide)
    simpa using h

/-- C2 counterexample: the claim's example asserts that after writing a string
column of width 5, appending a length-10 value with min_itemsize 10 for that
column succeeds; in the code the append raises the size-conflict error instead
(min_itemsize cannot widen an existing column). -/
theorem set_atom_string_append_min_itemsize_raises :
    set_atom_string_itemsize 10 (MinItemsize.dict [("col", 10)]) "col" "col" (some 5)
      = Except.error (string_col_size_msg 10 5 "col") := rfl

/-- C2 (amended): when no error is raised the chosen on-disk width is the maximum
of the probed string length, the resolved min_itemsize and the existing column
width; an existing column strictly narrower than the probed length always raises
the size-conflict error naming the column and both sizes; and in the example,
appending a length-10 value to a width-5 column raises with or without
min_itemsize, while supplying min_itemsize 10 at the first write chooses width
10 and the later length-10 append then succeeds. -/
theorem set_atom_string_width (probed : Nat) (mi : MinItemsize) (nm cn : String) :
    (∀ r, set_atom_string_itemsize probed mi nm cn none = Except.ok r →
        r = max (resolve_min_itemsize mi nm) probed)
    ∧ (∀ e r, set_atom_string_itemsize probed mi nm cn (some e) = Except.ok r →
        r = max e (max (resolve_min_itemsize mi nm) probed))
    ∧ (∀ e, e < probed →
        set_atom_string_itemsize probed mi nm cn (some e)
          = Except.error (string_col_size_msg (max (resolve_min_itemsize mi nm) probed) e cn))
    ∧ set_atom_string_itemsize 5 (MinItemsize.dict [("col", 10)]) "col" "col" none
        = Except.ok 10
    ∧ set_atom_string_itemsize 10 (MinItemsize.dict [("col", 10)]) "col" "col" (some 10)
        = Except.ok 10
    ∧ (set_atom_string_itemsize 10 MinItemsize.empty "col" "col" (some 5)).isOk = false
    ∧ (set_atom_string_itemsize 10 (MinItemsize.dict [("col", 10)]) "col" "col" (some 5)).isOk
        = false := by
  refine ⟨?_, ?_, ?_, rfl, rfl, rfl, rfl⟩
  · intro r h
    simpa [set_atom_string_itemsize, Nat.max_comm] using h.symm
  · intro e r h
    simp only [set_atom_string_itemsize, validate_col_string] at h
    by_cases he : e < max (resolve_min_itemsize mi nm) probed
    · rw [if_pos he] at h
      cases h
    · rw [if_neg he] at h
      cases h
      push_neg at he
      rw [Nat.max_eq_left he]
      by_cases h2 : max (resolve_min_itemsize mi nm) probed < e
      · rw [if_pos h2]
      · rw [if_neg h2]
        omega
  · intro e he
    have hlt : e < max (resolve_min_itemsize mi nm) probed :=
      lt_of_lt_of_le he (le_max_right _ _)
    simp [set_atom_string_itemsize, validate_col_string, hlt]

theorem set_atom_string_width_witness :
    set_atom_string_itemsize 10 MinItemsize.empty "col" "col" (some 5)
      = Except.error (string_col_size_msg (max (resolve_min_itemsize MinItemsize.empty "col") 10) 5 "col") :=
  (set_atom_string_width 10 MinItemsize.empty "col" "col").2.2.1 5 (by decide)

/-! ### Table.validate (3274-3303), DataCol.validate_attr (2407-2419),
    IndexCol.validate_and_set (1925-1931) and AppendableTable.write (4098-4154) -/

/-- Persisted attributes of one values axis: `name_kind` holds the block's item
names, `name_dtype` the dtype string, `name_meta` the meta tag. -/
structure ColAttrs where
  name : String
  valuesAttr : Option (List String)
  dtypeAttr : Option String
  metaAttr : Option String
deriving Repr, DecidableEq

/-- A values axis derived from the incoming batch by create_axes/set_atom. -/
structure IncomingCol where
  name : String
  values : List String
  dtype : String
  meta : Option String
deriving Repr, DecidableEq

/-- Table state: the persisted per-axis attributes and the appended row records. -/
structure TState where
  attrs : List ColAttrs
  rows : List (List Int)
deriving Repr, DecidableEq

def items_mismatch_msg : String :=
  "appended items do not match existing items in table!"

def dtype_mismatch_msg : String :=
  "appended items dtype do not match existing items dtype in table!"

def combinate_msg : String :=
  "invalid combinate of values_axes on appending data"

/-- DataCol.validate_attr on append: the persisted item list and dtype, when
present, must equal the incoming ones. -/
def validate_attr_data (a : ColAttrs) (c : IncomingCol) : Option String :=
  if a.valuesAttr.isSome ∧ a.valuesAttr ≠ some c.values then some items_mismatch_msg
  else if a.dtypeAttr.isSome ∧ a.dtypeAttr ≠ some c.dtype then some dtype_mismatch_msg
  else none

/-- DataCol.set_attr: overwrite the persisted attributes from the incoming axis. -/
def set_attr_data (a : ColAttrs) (c : IncomingCol) : ColAttrs :=
  { a with valuesAttr := some c.values, dtypeAttr := some c.dtype, metaAttr := c.meta }

/-- The `for a in self.axes: a.validate_and_set(self, append)` loop of
AppendableTable.write: each axis is validated and then its attributes are
written; an error stops the loop, leaving earlier axes already rewritten. -/
def validate_and_set_all : List ColAttrs → List IncomingCol →
    Option String × List ColAttrs
  | [], _ => (none, [])
  | a :: as, [] => (none, a :: as)
  | a :: as, c :: cs =>
      match validate_attr_data a c with
      | some e => (some e, a :: as)
      | none =>
          let res := validate_and_set_all as cs
          (res.1, set_attr_data a c :: res.2)

/-- AppendableTable.write with append=True: Table.validate compares the column
identities against the existing schema (pytables.py 3274-3303), then each axis
is validated and attribute-synced, and only then are the rows appended. -/
def append_write (st : TState) (incoming : List IncomingCol)
    (newRows : List (List Int)) : Option String × TState :=
  if incoming.map IncomingCol.name ≠ st.attrs.map ColAttrs.name then
    (some combinate_msg, st)
  else
    match validate_and_set_all st.attrs incoming with
    | (some e, as2) => (some e, { st with attrs := as2 })
    | (none, as2) => (none, { attrs := as2, rows := st.rows ++ newRows })

/-- The incoming axis agrees with the persisted attributes of its slot. -/
def persistedMatches (a : ColAttrs) (c : IncomingCol) : Prop :=
  a.valuesAttr = some c.values ∧ a.dtypeAttr = some c.dtype ∧ a.metaAttr = c.meta

theorem set_attr_data_of_matches (a : ColAttrs) (c : IncomingCol)
    (h : persistedMatches a c) : set_attr_data a c = a := by
  obtain ⟨h1, h2, h3⟩ := h
  cases a
  simp_all [set_attr_data]

theorem validate_and_set_all_mismatch (as : List ColAttrs) (cs : List IncomingCol)
    (j : Nat) (hj : j < cs.length) (hlen : as.length = cs.length)
    (hbefore : ∀ i, i < j → persistedMatches (as.getD i ⟨"", none, none, none⟩)
        (cs.getD i ⟨"", [], "", none⟩))
    (hvj : (as.getD j ⟨"", none, none, none⟩).valuesAttr
        = some ((cs.getD j ⟨"", [], "", none⟩).values))
    (hdj : (as.getD j ⟨"", none, none, none⟩).dtypeAttr.isSome ∧
        (as.getD j ⟨"", none, none, none⟩).dtypeAttr
          ≠ some ((cs.getD j ⟨"", [], "", none⟩).dtype)) :
    validate_and_set_all as cs = (some dtype_mismatch_msg, as) := by
  induction as generalizing cs j with
  | nil =>
      simp at hlen
      omega
  | cons a as ih =>
      cases cs with
      | nil => simp at hj
      | cons c cs =>
          cases j with
          | zero =>
              simp only [List.getD_cons_zero] at hvj hdj
              have hv : ¬ (a.valuesAttr.isSome ∧ a.valuesAttr ≠ some c.values) := by
                rw [hvj]
                simp
              unfold validate_and_set_all validate_attr_data
              rw [if_neg hv, if_pos hdj]
          | succ j =>
              have h0 : persistedMatches a c := by
                have := hbefore 0 (Nat.succ_pos j)
                simpa using this
              have hv0 : validate_attr_data a c = none := by
                obtain ⟨h1, h2, _⟩ := h0
                unfold validate_attr_data
                rw [if_neg, if_neg] <;> simp [h1, h2]
              have hrec := ih cs j (by simpa using hj) (by simpa using hlen)
                (fun i hi => by
                  have := hbefore (i + 1) (by omega)
                  simpa using this)
                (by simpa using hvj) (by simpa using hdj)
              unfold validate_and_set_all
              rw [hv0]
              simp only [hrec, set_attr_data_of_matches a c h0]

/-- C3: appending a batch whose value-column dtype differs from the persisted
dtype for the matching column (all earlier columns conforming) raises the dtype
mismatch error and leaves the table state — rows and persisted schema attributes
— exactly as it was; the dtype and identity validation precedes any row write. -/
theorem append_write_dtype_conflict (st : TState) (incoming : List IncomingCol)
    (newRows : List (List Int)) (j : Nat) (hj : j < incoming.length)
    (hname : incoming.map IncomingCol.name = st.attrs.map ColAttrs.name)
    (hbefore : ∀ i, i < j → persistedMatches (st.attrs.getD i ⟨"", none, none, none⟩)
        (incoming.getD i ⟨"", [], "", none⟩))
    (hvj : (st.attrs.getD j ⟨"", none, none, none⟩).valuesAttr
        = some ((incoming.getD j ⟨"", [], "", none⟩).values))
    (hdj : (st.attrs.getD j ⟨"", none, none, none⟩).dtypeAttr.isSome ∧
        (st.attrs.getD j ⟨"", none, none, none⟩).dtypeAttr
          ≠ some ((incoming.getD j ⟨"", [], "", none⟩).dtype)) :
    append_write st incoming newRows = (some dtype_mismatch_msg, st) := by
  have hlen : st.attrs.length = incoming.length := by
    have := congrArg List.length hname
    simpa using this.symm
  unfold append_write
  rw [if_neg (by simp [hname])]
  rw [validate_and_set_all_mismatch st.attrs incoming j hj hlen hbefore hvj hdj]

theorem append_write_dtype_conflict_witness :
    append_write
      ⟨[⟨"a", some ["a"], some "int64", none⟩, ⟨"b", some ["b"], some "float64", none⟩], [[1, 2]]⟩
      [⟨"a", ["a"], "int64", none⟩, ⟨"b", ["b"], "int32", none⟩] [[3, 4]]
    = (some dtype_mismatch_msg,
        ⟨[⟨"a", some ["a"], some "int64", none⟩, ⟨"b", some ["b"], some "float64", none⟩], [[1, 2]]⟩) := by
  have h := append_write_dtype_conflict
    ⟨[⟨"a", some ["a"], some "int64", none⟩, ⟨"b", some ["b"], some "float64", none⟩], [[1, 2]]⟩
    [⟨"a", ["a"], "int64", none⟩, ⟨"b", ["b"], "int32", none⟩] [[3, 4]] 1
    (by decide) (by decide)
    (fun i hi => by
      interval_cases i
      exact ⟨rfl, rfl, rfl⟩)
    (by decide) (by decide)
  exact h

/-! ### _ensure_term (107-128), HDFStore.remove (992-1044) and the
    no-predicate branch of AppendableTable.delete (4270-4285) -/

/-- _ensure_term on a list where: None entries are dropped and an empty result
is normalized to None. -/
def ensure_term (ws : Option (List (Option String))) : Option (List String) :=
  match ws with
  | none => none
  | some l =>
      let wl := l.filterMap id
      if wl.isEmpty then none else some wl

/-- Outcome of HDFStore.remove once the storer has been resolved. -/
inductive RemoveOutcome where
  | nodeRemoved : RemoveOutcome
  | delegatedDelete : Option (List String) → Option Int → Option Int → RemoveOutcome
deriving Repr, DecidableEq

/-- HDFStore.remove: normalize where, then remove the whole node when where,
start and stop are all None, else delegate to the storer's delete. -/
def hdf_remove (whereArg : Option (List (Option String))) (start stop : Option Int) :
    RemoveOutcome :=
  let w := ensure_term whereArg
  if w.isNone ∧ start.isNone ∧ stop.isNone then RemoveOutcome.nodeRemoved
  else RemoveOutcome.delegatedDelete w start stop

/-- Outcome of AppendableTable.delete. -/
inductive DeleteOutcome (α : Type) where
  | wholeNodeRemoved : Nat → DeleteOutcome α
  | rangeRemoved : List α → Nat → DeleteOutcome α
  | predicateDelete : List String → DeleteOutcome α
deriving Repr, DecidableEq

/-- PyTables Table.remove_rows(start, stop): drop the row positions [start, stop). -/
def remove_rows {α : Type} (rows : List α) (start stop : Nat) : List α :=
  rows.take start ++ rows.drop stop

/-- AppendableTable.delete, dispatch part: a None or empty where with no
start/stop removes the whole node and returns the previous row count; a None or
empty where with a range removes that row range; otherwise the predicate path
runs (modelled separately). -/
def table_delete {α : Type} (rows : List α) (w : Option (List String))
    (start stop : Option Nat) : DeleteOutcome α :=
  let emptyWhere := match w with
    | none => true
    | some l => l.isEmpty
  if emptyWhere then
    if start.isNone ∧ stop.isNone then
      DeleteOutcome.wholeNodeRemoved rows.length
    else
      let s := start.getD 0
      let t := stop.getD rows.length
      let remaining := remove_rows rows s t
      DeleteOutcome.rangeRemoved remaining (rows.length - remaining.length)
  else
    DeleteOutcome.predicateDelete (w.getD [])

/-- C10: an empty where list is normalized to None by _ensure_term; Table.delete
with a None-or-empty where and no start/stop removes the whole node and returns
the previous total row count; and HDFStore.remove with where=[] therefore removes
the entire node — deleting every row, not zero rows. -/
theorem remove_empty_where (rows : List Int) :
    ensure_term (some []) = none
    ∧ hdf_remove (some []) none none = RemoveOutcome.nodeRemoved
    ∧ table_delete rows none none none = DeleteOutcome.wholeNodeRemoved rows.length
    ∧ table_delete rows (some []) none none = DeleteOutcome.wholeNodeRemoved rows.length := by
  exact ⟨rfl, rfl, rfl, rfl⟩

/-! ### Selection (pytables.py 4863-4911, 4947-4969) -/

/-- np.arange(a, b) over Int. -/
def intRange (a b : Int) : List Int :=
  (List.range (b - a).toNat).map (fun (i : Nat) => a + (i : Int))

/-- numpy boolean-array indexing xs[bs]: lengths must agree, keep where True. -/
def maskSelect (xs : List Int) (bs : List Bool) : Except String (List Int) :=
  if xs.length = bs.length then
    Except.ok ((xs.zip bs).filterMap (fun p => if p.2 then some p.1 else none))
  else Except.error "boolean index did not match indexed array along dimension 0"

/-- The where argument handed to Selection: absent, a boolean mask, an explicit
integer coordinate sequence, or a structured expression condition (modelled as
the row predicate the container evaluates). -/
inductive WhereArg where
  | noneW : WhereArg
  | boolMask : List Bool → WhereArg
  | intCoords : List Int → WhereArg
  | exprCond : (Int → Bool) → WhereArg

/-- State produced by Selection.__init__. -/
structure SelState where
  coordinates : Option (List Int)
  condition : Option (Int → Bool)

def range_error_msg : String :=
  "where must have index locations >= start and < stop"

/-- Modelled from the spec: the expression collaborator (PyTablesExpr and its
evaluate(), not part of src/pandas/io/pytables.py) receives the rebound
coordinate array when the coordinate branch falls through, and — an integer
array being no parsable condition — its evaluation raises this ValueError
inside Selection.__init__. -/
def cannot_process_expression_msg : String :=
  "cannot process expression, the passed where is not a valid condition"

/-- `(where < self.start).any()` guard of Selection.__init__. -/
def coordsBadStart (cs : List Int) : Option Int → Bool
  | some s => cs.any (fun c => c < s)
  | none => false

/-- `(where >= self.stop).any()` guard of Selection.__init__. -/
def coordsBadStop (cs : List Int) : Option Int → Bool
  | some t => cs.any (fun c => t ≤ c)
  | none => false

/-- Selection.__init__ (pytables.py 4863-4911): a boolean mask is converted to
coordinates np.arange(start, stop)[mask] with start defaulting to 0 and stop to
the table row count; integer coordinates are range-checked against a given
start/stop; an expression becomes a condition. -/
def selectionInit (nrows : Nat) (w : WhereArg) (start stop : Option Int) :
    Except String SelState :=
  match w with
  | WhereArg.boolMask bs =>
      let s := start.getD 0
      let t := stop.getD (nrows : Int)
      match maskSelect (intRange s t) bs with
      | Except.error e => Except.error e
      | Except.ok cs => Except.ok ⟨some cs, none⟩
  | WhereArg.intCoords cs =>
      if coordsBadStart cs start || coordsBadStop cs stop then
        -- the range ValueError raised at pytables.py 4897 is swallowed by the
        -- enclosing `except ValueError: pass` (4902-4903); coordinates remain
        -- None and the rebound integer array reaches generate/evaluate, whose
        -- ValueError is what construction actually raises
        Except.error cannot_process_expression_msg
      else Except.ok ⟨some cs, none⟩
  | WhereArg.exprCond p => Except.ok ⟨none, some p⟩
  | WhereArg.noneW => Except.ok ⟨none, none⟩

/-- Negative start/stop are taken relative to the end (pytables.py 4951-4960). -/
def normBound (nrows : Nat) (b : Option Int) (dflt : Int) : Int :=
  match b with
  | none => dflt
  | some s => if s < 0 then s + nrows else s

/-- Selection.select_coords (pytables.py 4947-4969): a condition is evaluated by
the container's get_where_list(sort=True) over [start, stop); explicit
coordinates are returned as stored; otherwise the whole range is returned. -/
def select_coords (nrows : Nat) (st : SelState) (start stop : Option Int) :
    List Int :=
  let s := normBound nrows start 0
  let t := normBound nrows stop nrows
  match st.condition with
  | some p => (intRange s t).filter p
  | none =>
      match st.coordinates with
      | some cs => cs
      | none => intRange s t

theorem intRange_length (a b : Int) : (intRange a b).length = (b - a).toNat := by
  unfold intRange
  rw [List.length_map, List.length_range]

theorem filterMap_snd_eq_map_filter {α : Type} (l : List (α × Bool)) :
    l.filterMap (fun p => if p.2 then some p.1 else none)
      = (l.filter (fun p => p.2)).map Prod.fst := by
  induction l with
  | nil => rfl
  | cons x xs ih =>
      cases x with
      | mk a b =>
          cases b <;> simp [List.filterMap_cons, List.filter_cons, ih]

theorem pairwise_fst_zip {α β : Type} {R : α → α → Prop} :
    ∀ (l : List α) (bs : List β), l.Pairwise R →
      (l.zip bs).Pairwise (fun x y => R x.1 y.1)
  | _, [], _ => by simp
  | [], _ :: _, _ => by simp
  | x :: l, b :: bs, h => by
      rw [List.zip_cons_cons]
      rcases List.pairwise_cons.mp h with ⟨hx, hl⟩
      refine List.pairwise_cons.mpr ⟨?_, pairwise_fst_zip l bs hl⟩
      intro y hy
      exact hx y.1 (List.of_mem_zip hy).1

theorem intRange_pairwise (a b : Int) :
    (intRange a b).Pairwise (fun x y => x < y) := by
  unfold intRange
  refine List.Pairwise.map _ ?_ (List.pairwise_lt_range _)
  intro i j hij
  have h : (i : Int) < (j : Int) := by exact_mod_cast hij
  omega

/-- C5 (amended): an array-like where: a boolean mask yields the positions of
its True entries offset by start (start defaulting to 0 and stop to the row
count); an integer coordinate array with any position below a given start or
at-or-above a given stop makes Selection construction fail rather than clip or
ignore the positions — but not with the range error, which is raised at
pytables.py 4897 and immediately swallowed by the enclosing except-ValueError
handler: construction fails with the expression collaborator's "cannot process
expression" error once the array reaches generate/evaluate; in-range
coordinates are stored unchanged. -/
theorem selection_arraylike_coords (nrows : Nat) (bs : List Bool) (cs : List Int)
    (start stop : Option Int) :
    (bs.length = ((stop.getD (nrows : Int)) - start.getD 0).toNat →
      selectionInit nrows (WhereArg.boolMask bs) start stop =
        Except.ok ⟨some (bs.enum.filterMap
          (fun p => if p.2 then some (start.getD 0 + (p.1 : Int)) else none)), none⟩)
    ∧ ((∃ s, start = some s ∧ ∃ c ∈ cs, c < s) ∨ (∃ t, stop = some t ∧ ∃ c ∈ cs, t ≤ c) →
      selectionInit nrows (WhereArg.intCoords cs) start stop
        = Except.error cannot_process_expression_msg)
    ∧ ((∀ c ∈ cs, (∀ s, start = some s → s ≤ c) ∧ (∀ t, stop = some t → c < t)) →
      selectionInit nrows (WhereArg.intCoords cs) start stop = Except.ok ⟨some cs, none⟩) := by
  refine ⟨?_, ?_, ?_⟩
  · intro hlen
    have hr : (intRange (start.getD 0) (stop.getD (nrows : Int))).length = bs.length := by
      rw [intRange_length, hlen]
    simp only [selectionInit, maskSelect, if_pos hr]
    have hzip : (intRange (start.getD 0) (stop.getD (nrows : Int))).zip bs
        = List.map (Prod.map (fun i : Nat => start.getD 0 + (i : Int)) id)
            ((List.range bs.length).zip bs) := by
      unfold intRange
      rw [hlen, List.zip_map_left]
    rw [hzip, ← List.enum_eq_zip_range, List.filterMap_map]
    rfl
  · intro h
    have hbad : (coordsBadStart cs start || coordsBadStop cs stop) = true := by
      rcases h with ⟨s, hs, c, hc, hlt⟩ | ⟨t, ht, c, hc, hle⟩
      · subst hs
        apply Bool.or_eq_true_iff.mpr
        left
        exact List.any_eq_true.mpr ⟨c, hc, by simpa using hlt⟩
      · subst ht
        apply Bool.or_eq_true_iff.mpr
        right
        exact List.any_eq_true.mpr ⟨c, hc, by simpa using hle⟩
    simp only [selectionInit]
    rw [if_pos hbad]
  · intro h
    have h1 : coordsBadStart cs start = false := by
      cases start with
      | none => rfl
      | some s =>
          simp only [coordsBadStart, List.any_eq_false]
          intro c hc
          have hcs := (h c hc).1 s rfl
          simpa using hcs
    have h2 : coordsBadStop cs stop = false := by
      cases stop with
      | none => rfl
      | some t =>
          simp only [coordsBadStop, List.any_eq_false]
          intro c hc
          have hcs := (h c hc).2 t rfl
          simpa using hcs
    simp only [selectionInit, h1, h2]
    rfl

theorem selection_arraylike_coords_witness :
    selectionInit 4 (WhereArg.boolMask [true, false, true, true]) none none =
      Except.ok ⟨some (([true, false, true, true] : List Bool).enum.filterMap
        (fun p => if p.2 then some ((none : Option Int).getD 0 + (p.1 : Int)) else none)), none⟩
    ∧ selectionInit 4 (WhereArg.intCoords [5, 3]) (some 4) none
        = Except.error cannot_process_expression_msg
    ∧ selectionInit 4 (WhereArg.intCoords [5, 3]) (some 0) (some 6)
        = Except.ok ⟨some [5, 3], none⟩ := by
  refine ⟨?_, ?_, ?_⟩
  · exact (selection_arraylike_coords 4 [true, false, true, true] [] none none).1 (by decide)
  · exact (selection_arraylike_coords 4 [] [5, 3] (some 4) none).2.1
      (Or.inl ⟨4, rfl, 3, by decide, by decide⟩)
  · refine (selection_arraylike_coords 4 [] [5, 3] (some 0) (some 6)).2.2 ?_
    intro c hc
    constructor
    · intro s hs
      cases hs
      fin_cases hc <;> decide
    · intro t ht
      cases ht
      fin_cases hc <;> decide

/-- C5 counterexample: for the out-of-range integer coordinate array [5, 3]
with start=0 and stop=4 given, Selection construction does not surface the
claimed range error: that ValueError is swallowed by the except-ValueError
handler around the coordinate inference, and construction fails with the
expression-processing error instead (the positions are still never clipped). -/
theorem selection_out_of_range_swallowed :
    selectionInit 4 (WhereArg.intCoords [5, 3]) (some 0) (some 4)
      = Except.error cannot_process_expression_msg
    ∧ cannot_process_expression_msg ≠ range_error_msg := by
  exact ⟨rfl, by decide⟩

/-- C4 counterexample: a Selection built from the explicit integer coordinate
sequence [5, 3] stores it unchanged and select_coords returns [5, 3], which is
not ascending sorted. -/
theorem select_coords_unsorted_passthrough :
    selectionInit 10 (WhereArg.intCoords [5, 3]) none none
      = Except.ok ⟨some [5, 3], none⟩
    ∧ select_coords 10 ⟨some [5, 3], none⟩ none none = [5, 3]
    ∧ ¬ List.Pairwise (fun a b : Int => a ≤ b)
        (select_coords 10 ⟨some [5, 3], none⟩ none none) := by
  refine ⟨rfl, rfl, by decide⟩

/-- C4 (amended): select_coords returns strictly increasing (hence ascending
sorted, never deduplicated) absolute coordinates for an expression condition, an
absent predicate, and a boolean mask; an explicit integer coordinate sequence is
returned exactly as passed — order preserved and duplicates kept — and is
therefore sorted only when passed sorted. -/
theorem select_coords_order (nrows : Nat) (p : Int → Bool) (bs : List Bool)
    (cs : List Int) (start stop : Option Int) (st : SelState) (cs0 : List Int) :
    List.Pairwise (fun a b : Int => a < b) (select_coords nrows ⟨none, some p⟩ start stop)
    ∧ List.Pairwise (fun a b : Int => a < b) (select_coords nrows ⟨none, none⟩ start stop)
    ∧ (selectionInit nrows (WhereArg.boolMask bs) start stop = Except.ok st →
        st.coordinates = some cs0 → List.Pairwise (fun a b : Int => a < b) cs0)
    ∧ select_coords nrows ⟨some cs, none⟩ start stop = cs := by
  refine ⟨?_, ?_, ?_, rfl⟩
  · exact List.Pairwise.filter _ (intRange_pairwise _ _)
  · exact intRange_pairwise _ _
  · intro hinit hco
    simp only [selectionInit, maskSelect] at hinit
    by_cases hlen : (intRange (start.getD 0) (stop.getD (nrows : Int))).length = bs.length
    · rw [if_pos hlen] at hinit
      cases hinit
      simp only at hco
      cases hco
      rw [filterMap_snd_eq_map_filter]
      have h1 := pairwise_fst_zip (R := fun a b : Int => a < b)
        (intRange (start.getD 0) (stop.getD (nrows : Int))) bs (intRange_pairwise _ _)
      have h2 := List.Pairwise.filter (fun q => q.2) h1
      exact List.Pairwise.map _ (fun a b h => h) h2
    · rw [if_neg hlen] at hinit
      cases hinit

theorem select_coords_order_witness :
    List.Pairwise (fun a b : Int => a < b) ([0, 2, 3] : List Int) := by
  refine (select_coords_order 4 (fun _ => true) [true, false, true, true] []
      none none ⟨some [0, 2, 3], none⟩ [0, 2, 3]).2.2.1 ?_ rfl
  rfl

/-! ### DataCol.convert, categorical branch (pytables.py 2457-2480) -/

/-- Inclusive cumulative sum, numpy `.cumsum()`. -/
def cumsumFrom (acc : Nat) : List Nat → List Nat
  | [] => []
  | x :: xs => (acc + x) :: cumsumFrom (acc + x) xs

/-- Categorical.from_codes: codes must lie in [-1, number of categories). -/
def from_codes (codes : List Int) (cats : List String) (ordered : Bool) :
    Except String (List Int × List String × Bool) :=
  if codes.all (fun c => -1 ≤ c ∧ c < (cats.length : Int)) then
    Except.ok (codes, cats, ordered)
  else Except.error "codes need to be between -1 and len(categories)-1"

/-- numpy `codes[codes != -1] -= arr` when the selected count equals arr's
length: walk the codes, consuming one arr entry per code that is not -1. -/
def subAtSelected : List Int → List Nat → List Int
  | [], _ => []
  | c :: cs, arr =>
      if c ≠ -1 then (c - (arr.headD 0 : Nat)) :: subAtSelected cs arr.tail
      else c :: subAtSelected cs arr

def broadcast_error_msg : String :=
  "NumPy boolean array indexing assignment cannot broadcast the input values to the output"

/-- The meta == "category" branch of DataCol.convert: absent stored categories
become the empty category list; null entries in the stored categories are
stripped and `codes[codes != -1] -= mask.astype(int).cumsum().values` is
applied, which numpy evaluates elementwise when the number of non-missing codes
equals the number of original categories, broadcasts when there is exactly one
original category, and raises otherwise; finally Categorical.from_codes
validates the adjusted codes. -/
def convert_category (metadata : Option (List (Option String))) (codes : List Int)
    (ordered : Bool) : Except String (List Int × List String × Bool) :=
  match metadata with
  | none => from_codes codes [] ordered
  | some cats =>
      let mask := cats.map (fun c => c.isNone)
      if mask.any id then
        let cats2 := cats.filterMap id
        let cums := cumsumFrom 0 (mask.map (fun b => if b then 1 else 0))
        let sel := codes.filter (fun c => c ≠ -1)
        if sel.length = cums.length then
          from_codes (subAtSelected codes cums) cats2 ordered
        else if cums.length = 1 then
          from_codes (codes.map (fun c => if c = -1 then c else c - (cums.headD 0 : Nat)))
            cats2 ordered
        else Except.error broadcast_error_msg
      else from_codes codes (cats.filterMap id) ordered

/-- C6: the claimed remap — each non-negative code decremented by the number of
removed (null) categories at original positions up to that code, -1 preserved —
is not what the code computes.  On stored categories [a, NaN, b] with codes
[0, 0, 2] (originally written values [a, a, b]) the code subtracts the per-
category cumulative counts positionally across the non-missing codes, producing
codes [0, -1, 1] — values [a, missing, b] — instead of the claimed [0, 0, 1];
and whenever the number of non-missing codes differs from the number of stored
categories (and more than one category is stored) the conversion raises a
broadcast error instead of reconstructing anything.  A wholly absent category
list is treated as the empty category set, as claimed. -/
theorem convert_category_positional_bug :
    convert_category (some [some "a", none, some "b"]) [0, 0, 2] false
      = Except.ok ([0, -1, 1], ["a", "b"], false)
    ∧ ([0, -1, 1] : List Int) ≠ [0, 0, 1]
    ∧ (convert_category (some [some "a", none, some "b"]) [2, -1, -1] false).isOk = false
    ∧ convert_category none [-1, -1] true = Except.ok ([-1, -1], [], true) := by
  refine ⟨rfl, by decide, rfl, rfl⟩

/-! ### AppendableTable.write_data (4156-4229) and write_data_chunk (4231-4268) -/

/-- An operation issued against the underlying container table. -/
inductive WriteOp (α : Type) where
  | append : List α → WriteOp α
  | flush : WriteOp α
deriving Repr, DecidableEq

/-- Python slice xs[s:e]. -/
def pySlice {α : Type} (s e : Nat) (xs : List α) : List α := (xs.take e).drop s

/-- Consolidate the per-block all-missing masks with elementwise AND
(pytables.py 4176-4182); no masks means no row suppression. -/
def consolidate_masks (masks : List (List Bool)) : Option (List Bool) :=
  match masks with
  | [] => none
  | m :: ms => some (ms.foldl (fun acc m2 => acc.zipWith (fun a b => a && b) m2) m)

/-- `rows = rows[~mask]` (pytables.py 4260-4264): keep the rows whose mask entry
is false; skipping the filter when the mask keeps everything changes nothing. -/
def apply_row_mask {α : Type} (mask : Option (List Bool)) (rows : List α) : List α :=
  match mask with
  | none => rows
  | some m => ((rows.zip m).filter (fun p => !p.2)).map Prod.fst

/-- AppendableTable.write_data_chunk: return early when any value block slice
has a zero-size shape, drop the masked rows, and append then flush only when
rows remain. -/
def write_data_chunk_ops {α : Type} (widths : List Nat) (chunkRows : List α)
    (chunkMask : Option (List Bool)) : List (WriteOp α) :=
  if widths.any (fun w => w * chunkRows.length = 0) then []
  else
    let rows := apply_row_mask chunkMask chunkRows
    if rows.isEmpty then []
    else [WriteOp.append rows, WriteOp.flush]

/-- The chunk loop of write_data (pytables.py 4212-4229): `chunks = nrows //
chunksize + 1` iterations over [i*chunksize, min((i+1)*chunksize, nrows)),
breaking at the first empty chunk — equivalent to skipping empty chunks, since
start_i only grows. -/
def write_data_ops {α : Type} (chunksize : Option Nat) (dropna : Bool)
    (blockMasks : List (List Bool)) (widths : List Nat) (recs : List α) :
    List (WriteOp α) :=
  let nrows := recs.length
  let mask := if dropna then consolidate_masks blockMasks else none
  let cs := chunksize.getD 100000
  ((List.range (nrows / cs + 1)).filterMap (fun i =>
      let s := i * cs
      let e := min ((i + 1) * cs) nrows
      if s < e then
        some (write_data_chunk_ops widths (pySlice s e recs) (mask.map (pySlice s e)))
      else none)).flatten

/-- The partition of [0, nrows) into ceil(nrows/cs) consecutive chunk bounds
[i*cs, min((i+1)*cs, nrows)), as the claim states it. -/
def spec_chunk_bounds (nrows cs : Nat) : List (Nat × Nat) :=
  (List.range ((nrows + cs - 1) / cs)).map (fun i => (i * cs, min ((i + 1) * cs) nrows))

/-- All rows appended by a trace, in order. -/
def appendedRows {α : Type} : List (WriteOp α) → List α
  | [] => []
  | WriteOp.append rs :: t => rs ++ appendedRows t
  | WriteOp.flush :: t => appendedRows t

/-- A trace consisting of blocks of one non-empty append followed by one flush. -/
inductive AppendFlushShape {α : Type} : List (WriteOp α) → Prop
  | nil : AppendFlushShape []
  | block (rs : List α) (t : List (WriteOp α)) : rs ≠ [] → AppendFlushShape t →
      AppendFlushShape (WriteOp.append rs :: WriteOp.flush :: t)

theorem lt_ceil_div_iff (n cs i : Nat) (h : 0 < cs) :
    i < (n + cs - 1) / cs ↔ i * cs < n := by
  have h1 : i < (n + cs - 1) / cs ↔ (i + 1) * cs ≤ n + cs - 1 := by
    rw [Nat.succ_le_iff.symm]
    exact Nat.le_div_iff_mul_le h
  have h2 : (i + 1) * cs = i * cs + cs := by ring
  rw [h1, h2]
  omega

theorem filterMap_if_all_true {β γ : Type} (c : β → Prop) [DecidablePred c]
    (g : β → γ) (l : List β) (h : ∀ i ∈ l, c i) :
    l.filterMap (fun i => if c i then some (g i) else none) = l.map g := by
  induction l with
  | nil => rfl
  | cons x xs ih =>
      rw [List.filterMap_cons, if_pos (h x (List.mem_cons_self x xs)), List.map_cons,
        ih (fun i hi => h i (List.mem_cons_of_mem x hi))]

theorem filterMap_if_all_false {β γ : Type} (c : β → Prop) [DecidablePred c]
    (g : β → γ) (l : List β) (h : ∀ i ∈ l, ¬ c i) :
    l.filterMap (fun i => if c i then some (g i) else none) = [] := by
  induction l with
  | nil => rfl
  | cons x xs ih =>
      rw [List.filterMap_cons, if_neg (h x (List.mem_cons_self x xs)),
        ih (fun i hi => h i (List.mem_cons_of_mem x hi))]

theorem chunk_loop_eq {γ : Type} (cs n : Nat) (h : 0 < cs) (g : Nat → γ) :
    (List.range (n / cs + 1)).filterMap
        (fun i => if i * cs < min ((i + 1) * cs) n then some (g i) else none)
      = (List.range ((n + cs - 1) / cs)).map g := by
  have hcond : ∀ i, (i * cs < min ((i + 1) * cs) n) ↔ i * cs < n := by
    intro i
    have hstep : i * cs < (i + 1) * cs := by
      have heq : i * cs + cs = (i + 1) * cs := by ring
      omega
    rw [Nat.lt_min]
    exact ⟨fun hp => hp.2, fun hp => ⟨hstep, hp⟩⟩
  have hle : (n + cs - 1) / cs ≤ n / cs + 1 := by
    calc (n + cs - 1) / cs ≤ (n + cs) / cs := Nat.div_le_div_right (by omega)
    _ = n / cs + 1 := Nat.add_div_right n h
  obtain ⟨k, hk⟩ : ∃ k, n / cs + 1 = (n + cs - 1) / cs + k :=
    ⟨n / cs + 1 - (n + cs - 1) / cs, by omega⟩
  rw [hk, List.range_add, List.filterMap_append]
  have h1 : (List.range ((n + cs - 1) / cs)).filterMap
      (fun i => if i * cs < min ((i + 1) * cs) n then some (g i) else none)
      = (List.range ((n + cs - 1) / cs)).map g := by
    apply filterMap_if_all_true
    intro i hi
    rw [hcond i]
    exact (lt_ceil_div_iff n cs i h).mp (List.mem_range.mp hi)
  have h2 : (List.map (fun x => (n + cs - 1) / cs + x) (List.range k)).filterMap
      (fun i => if i * cs < min ((i + 1) * cs) n then some (g i) else none) = [] := by
    apply filterMap_if_all_false
    intro i hi
    rw [hcond i]
    intro hlt
    have hge : (n + cs - 1) / cs ≤ i := by
      rcases List.mem_map.mp hi with ⟨x, _, hx⟩
      omega
    exact absurd ((lt_ceil_div_iff n cs i h).mpr hlt) (by omega)
  rw [h1, h2, List.append_nil]

theorem ceil_div_eq (n cs : Nat) (h : 0 < cs) (hn : 0 < n) :
    (n + cs - 1) / cs = (n - 1) / cs + 1 := by
  have h1 : n + cs - 1 = (n - 1) + cs := by omega
  rw [h1, Nat.add_div_right _ h]

theorem spec_chunk_bounds_succ (cs n : Nat) (h : 0 < cs) (hn : 0 < n) :
    spec_chunk_bounds n cs
      = (0, min cs n) :: (spec_chunk_bounds (n - cs) cs).map
          (fun se => (se.1 + cs, se.2 + cs)) := by
  rcases le_or_lt n cs with hle | hlt
  · have hz : n - cs = 0 := by omega
    have hceil : (n + cs - 1) / cs = 1 := by
      rw [ceil_div_eq n cs h hn, Nat.div_eq_of_lt (by omega)]
    have hceil0 : (0 + cs - 1) / cs = 0 := Nat.div_eq_of_lt (by omega)
    unfold spec_chunk_bounds
    have hr1 : List.range 1 = [0] := rfl
    rw [hz, hceil, hceil0, List.range_zero, List.map_nil, List.map_nil, hr1,
      List.map_cons, List.map_nil]
    have e0 : (0 + 1) * cs = cs := by omega
    rw [e0, Nat.zero_mul, Nat.min_comm]
  · have hceil : (n + cs - 1) / cs = ((n - cs) + cs - 1) / cs + 1 := by
      rw [ceil_div_eq n cs h hn, ceil_div_eq (n - cs) cs h (by omega)]
      have h2 : n - 1 = (n - cs - 1) + cs := by omega
      rw [h2, Nat.add_div_right _ h]
    unfold spec_chunk_bounds
    rw [hceil, List.range_succ_eq_map, List.map_cons, List.map_map, List.map_map]
    congr 1
    · simp
    · apply List.map_congr_left
      intro j _
      simp only [Function.comp_apply]
      have e1 : Nat.succ j * cs = j * cs + cs := Nat.succ_mul j cs
      have e2 : (Nat.succ j + 1) * cs = Nat.succ j * cs + cs := Nat.succ_mul (Nat.succ j) cs
      have e4 : (j + 1) * cs = j * cs + cs := Nat.succ_mul j cs
      rw [Prod.mk.injEq]
      refine ⟨by omega, by omega⟩

theorem chunks_cover {β : Type} (cs : Nat) (h : 0 < cs) :
    ∀ (n : Nat) (l : List β), l.length = n →
      ((spec_chunk_bounds n cs).map (fun se => pySlice se.1 se.2 l)).flatten = l := by
  intro n
  induction n using Nat.strong_induction_on with
  | _ n ih =>
    intro l hl
    rcases Nat.eq_zero_or_pos n with h0 | hpos
    · subst h0
      have hnil : l = [] := List.length_eq_zero.mp hl
      subst hnil
      have hceil0 : (0 + cs - 1) / cs = 0 := Nat.div_eq_of_lt (by omega)
      unfold spec_chunk_bounds
      rw [hceil0, List.range_zero, List.map_nil, List.map_nil, List.flatten_nil]
    · rw [spec_chunk_bounds_succ cs n h hpos, List.map_cons, List.flatten_cons,
        List.map_map]
      have hfirst : pySlice 0 (min cs n) l = l.take cs := by
        unfold pySlice
        rw [List.drop_zero]
        rw [List.take_eq_take]
        omega
      have hrest : (spec_chunk_bounds (n - cs) cs).map
          ((fun se => pySlice se.1 se.2 l) ∘ (fun se => (se.1 + cs, se.2 + cs)))
          = (spec_chunk_bounds (n - cs) cs).map (fun se => pySlice se.1 se.2 (l.drop cs)) := by
        apply List.map_congr_left
        intro se _
        simp only [Function.comp_apply]
        unfold pySlice
        rw [List.take_drop, Nat.add_comm cs se.2, List.drop_drop, Nat.add_comm se.1 cs]
      have hih : ((spec_chunk_bounds (n - cs) cs).map
          (fun se => pySlice se.1 se.2 (l.drop cs))).flatten = l.drop cs := by
        apply ih (n - cs) (by omega)
        rw [List.length_drop, hl]
      rw [hfirst, hrest, hih, List.take_append_drop]

theorem appendedRows_append {α : Type} (t1 t2 : List (WriteOp α)) :
    appendedRows (t1 ++ t2) = appendedRows t1 ++ appendedRows t2 := by
  induction t1 with
  | nil => rfl
  | cons op t ih => cases op <;> simp [appendedRows, ih]

theorem appendedRows_flatten {α : Type} (ls : List (List (WriteOp α))) :
    appendedRows ls.flatten = (ls.map appendedRows).flatten := by
  induction ls with
  | nil => rfl
  | cons t ls ih => rw [List.flatten_cons, appendedRows_append, List.map_cons,
      List.flatten_cons, ih]

theorem appendedRows_chunk {α : Type} (widths : List Nat) (chunk : List α)
    (cmask : Option (List Bool)) (hw : ∀ w ∈ widths, 0 < w) :
    appendedRows (write_data_chunk_ops widths chunk cmask)
      = apply_row_mask cmask chunk := by
  unfold write_data_chunk_ops
  by_cases hany : widths.any (fun w => w * chunk.length = 0)
  · rw [if_pos hany]
    rcases List.any_eq_true.mp hany with ⟨w, hwmem, hw0⟩
    have hwpos := hw w hwmem
    have hlen : chunk.length = 0 := by
      have := of_decide_eq_true hw0
      rcases Nat.mul_eq_zero.mp this with h1 | h1
      · omega
      · exact h1
    have hchunk : chunk = [] := List.length_eq_zero.mp hlen
    subst hchunk
    cases cmask <;> simp [apply_row_mask, appendedRows]
  · rw [if_neg hany]
    by_cases he : (apply_row_mask cmask chunk).isEmpty
    · simp only [if_pos he, appendedRows]
      exact (List.isEmpty_iff.mp he).symm
    · simp only [if_neg he, appendedRows]
      exact List.append_nil _

theorem take_zip {α β : Type} : ∀ (n : Nat) (a : List α) (b : List β),
    (a.zip b).take n = (a.take n).zip (b.take n)
  | 0, _, _ => by simp
  | _ + 1, [], _ => by simp
  | _ + 1, _ :: _, [] => by simp
  | n + 1, x :: a, y :: b => by
      rw [List.zip_cons_cons, List.take_succ_cons, List.take_succ_cons,
        List.take_succ_cons, List.zip_cons_cons, take_zip n a b]

theorem drop_zip {α β : Type} : ∀ (n : Nat) (a : List α) (b : List β),
    (a.zip b).drop n = (a.drop n).zip (b.drop n)
  | 0, _, _ => by simp
  | _ + 1, [], _ => by simp
  | _ + 1, _ :: _, [] => by simp
  | n + 1, x :: a, y :: b => by
      rw [List.zip_cons_cons, List.drop_succ_cons, List.drop_succ_cons,
        List.drop_succ_cons, drop_zip n a b]

theorem pySlice_zip {α β : Type} (s e : Nat) (a : List α) (b : List β) :
    pySlice s e (a.zip b) = (pySlice s e a).zip (pySlice s e b) := by
  unfold pySlice
  rw [take_zip, drop_zip]

theorem flatten_filter_map {β γ δ : Type} (p : β → Bool) (f : β → δ)
    (g : γ → List β) (xs : List γ) :
    (xs.map (fun x => ((g x).filter p).map f)).flatten
      = (((xs.map g).flatten).filter p).map f := by
  induction xs with
  | nil => rfl
  | cons x xs ih =>
      rw [List.map_cons, List.flatten_cons, List.map_cons, List.flatten_cons,
        List.filter_append, List.map_append, ih]

theorem consolidate_foldl_length (n : Nat) :
    ∀ (ms : List (List Bool)) (acc : List Bool), acc.length = n →
      (∀ m ∈ ms, m.length = n) →
      (ms.foldl (fun acc m2 => acc.zipWith (fun a b => a && b) m2) acc).length = n
  | [], acc, ha, _ => ha
  | m :: ms, acc, ha, hm => by
      rw [List.foldl_cons]
      apply consolidate_foldl_length n ms
      · rw [List.length_zipWith, ha, hm m (List.mem_cons_self m ms)]
        omega
      · intro m2 h2
        exact hm m2 (List.mem_cons_of_mem m h2)

theorem consolidate_masks_length (masks : List (List Bool)) (n : Nat)
    (h : ∀ m ∈ masks, m.length = n) (mm : List Bool)
    (hc : consolidate_masks masks = some mm) : mm.length = n := by
  cases masks with
  | nil => cases hc
  | cons m ms =>
      unfold consolidate_masks at hc
      cases hc
      exact consolidate_foldl_length n ms m (h m (List.mem_cons_self m ms))
        (fun m2 h2 => h m2 (List.mem_cons_of_mem m h2))

theorem apply_row_mask_chunks {α : Type} (cs : Nat) (h : 0 < cs) (m : List Bool)
    (l : List α) (hm : m.length = l.length) :
    ((spec_chunk_bounds l.length cs).map
        (fun se => apply_row_mask (some (pySlice se.1 se.2 m)) (pySlice se.1 se.2 l))).flatten
      = apply_row_mask (some m) l := by
  have hstep : (spec_chunk_bounds l.length cs).map
      (fun se => apply_row_mask (some (pySlice se.1 se.2 m)) (pySlice se.1 se.2 l))
      = (spec_chunk_bounds l.length cs).map
        (fun se => ((pySlice se.1 se.2 (l.zip m)).filter (fun p => !p.2)).map Prod.fst) := by
    apply List.map_congr_left
    intro se _
    rw [apply_row_mask, pySlice_zip]
  rw [hstep, flatten_filter_map]
  have hcover : ((spec_chunk_bounds l.length cs).map
      (fun se => pySlice se.1 se.2 (l.zip m))).flatten = l.zip m := by
    apply chunks_cover cs h
    rw [List.length_zip, hm]
    omega
  rw [hcover]
  rfl

theorem flatten_append_flush_shape {α : Type} :
    ∀ (ls : List (List (WriteOp α))),
      (∀ l ∈ ls, l = [] ∨ ∃ rs, rs ≠ [] ∧ l = [WriteOp.append rs, WriteOp.flush]) →
      AppendFlushShape ls.flatten
  | [], _ => by
      rw [List.flatten_nil]
      exact AppendFlushShape.nil
  | l :: ls, h => by
      rw [List.flatten_cons]
      have htail := flatten_append_flush_shape ls
        (fun l2 h2 => h l2 (List.mem_cons_of_mem l h2))
      rcases h l (List.mem_cons_self l ls) with h1 | ⟨rs, hne, h1⟩
      · rw [h1, List.nil_append]
        exact htail
      · rw [h1]
        exact AppendFlushShape.block rs ls.flatten hne htail

theorem write_data_chunk_ops_shape {α : Type} (widths : List Nat) (chunk : List α)
    (cmask : Option (List Bool)) :
    write_data_chunk_ops widths chunk cmask = []
      ∨ ∃ rs, rs ≠ [] ∧ write_data_chunk_ops widths chunk cmask
          = [WriteOp.append rs, WriteOp.flush] := by
  unfold write_data_chunk_ops
  by_cases hany : widths.any (fun w => w * chunk.length = 0)
  · left
    rw [if_pos hany]
  · rw [if_neg hany]
    by_cases he : (apply_row_mask cmask chunk).isEmpty
    · left
      rw [if_pos he]
    · right
      refine ⟨apply_row_mask cmask chunk, ?_, by rw [if_neg he]⟩
      intro hnil
      rw [hnil] at he
      exact he rfl

theorem write_data_ops_eq_chunks {α : Type} (chunksize : Option Nat) (dropna : Bool)
    (blockMasks : List (List Bool)) (widths : List Nat) (recs : List α)
    (hcs0 : 0 < chunksize.getD 100000) :
    write_data_ops chunksize dropna blockMasks widths recs
      = ((spec_chunk_bounds recs.length (chunksize.getD 100000)).map
          (fun se => write_data_chunk_ops widths (pySlice se.1 se.2 recs)
            ((if dropna then consolidate_masks blockMasks else none).map
              (pySlice se.1 se.2)))).flatten := by
  simp only [write_data_ops]
  congr 1
  rw [chunk_loop_eq (chunksize.getD 100000) recs.length hcs0]
  unfold spec_chunk_bounds
  rw [List.map_map]
  apply List.map_congr_left
  intro i _
  rfl

/-- C7: for an append of nrows rows with chunk size cs (100,000 when absent),
write_data partitions [0, nrows) into the consecutive chunks
[i*cs, min((i+1)*cs, nrows)) processed in ascending order, applies the
all-missing row mask to each chunk before appending it, flushes the table after
each chunk that still has rows after masking, and appends every row not
suppressed by the mask exactly once. -/
theorem write_data_chunking {α : Type} (chunksize : Option Nat) (dropna : Bool)
    (blockMasks : List (List Bool)) (widths : List Nat) (recs : List α)
    (hcs : ∀ k, chunksize = some k → 0 < k)
    (hw : ∀ w ∈ widths, 0 < w)
    (hbm : ∀ m ∈ blockMasks, m.length = recs.length) :
    write_data_ops chunksize dropna blockMasks widths recs
      = ((spec_chunk_bounds recs.length (chunksize.getD 100000)).map
          (fun se => write_data_chunk_ops widths (pySlice se.1 se.2 recs)
            ((if dropna then consolidate_masks blockMasks else none).map
              (pySlice se.1 se.2)))).flatten
    ∧ appendedRows (write_data_ops chunksize dropna blockMasks widths recs)
        = apply_row_mask (if dropna then consolidate_masks blockMasks else none) recs
    ∧ AppendFlushShape (write_data_ops chunksize dropna blockMasks widths recs) := by
  have hcs0 : 0 < chunksize.getD 100000 := by
    cases chunksize with
    | none => norm_num
    | some k => exact hcs k rfl
  have h1 := write_data_ops_eq_chunks chunksize dropna blockMasks widths recs hcs0
  refine ⟨h1, ?_, ?_⟩
  · rw [h1, appendedRows_flatten, List.map_map]
    have hchunk : (spec_chunk_bounds recs.length (chunksize.getD 100000)).map
        (appendedRows ∘ (fun se => write_data_chunk_ops widths (pySlice se.1 se.2 recs)
          ((if dropna then consolidate_masks blockMasks else none).map (pySlice se.1 se.2))))
        = (spec_chunk_bounds recs.length (chunksize.getD 100000)).map
          (fun se => apply_row_mask
            ((if dropna then consolidate_masks blockMasks else none).map (pySlice se.1 se.2))
            (pySlice se.1 se.2 recs)) := by
      apply List.map_congr_left
      intro se _
      exact appendedRows_chunk widths _ _ hw
    rw [hchunk]
    cases hdn : dropna with
    | false =>
        rw [show (if false = true then consolidate_masks blockMasks else none) = none from rfl]
        simp only [Option.map_none']
        exact chunks_cover (chunksize.getD 100000) hcs0 recs.length recs rfl
    | true =>
        rw [show (if true = true then consolidate_masks blockMasks else none)
            = consolidate_masks blockMasks from rfl]
        cases hcm : consolidate_masks blockMasks with
        | none =>
            simp only [Option.map_none']
            exact chunks_cover (chunksize.getD 100000) hcs0 recs.length recs rfl
        | some m =>
            simp only [Option.map_some']
            exact apply_row_mask_chunks (chunksize.getD 100000) hcs0 m recs
              (consolidate_masks_length blockMasks recs.length hbm m hcm)
  · simp only [write_data_ops]
    apply flatten_append_flush_shape
    intro l hl
    rcases List.mem_filterMap.mp hl with ⟨i, _, hi⟩
    by_cases hc : i * (chunksize.getD 100000)
        < min ((i + 1) * (chunksize.getD 100000)) recs.length
    · rw [if_pos hc] at hi
      cases hi
      exact write_data_chunk_ops_shape widths _ _
    · rw [if_neg hc] at hi
      cases hi

theorem write_data_chunking_witness :
    write_data_ops (some 2) true [[false, false, true]] [1] ([10, 20, 30] : List Int)
      = [WriteOp.append [10, 20], WriteOp.flush]
    ∧ appendedRows (write_data_ops (some 2) true [[false, true, false]] [1]
        ([10, 20, 30] : List Int)) = [10, 30] := by
  have h := write_data_chunking (some 2) true [[false, false, true]] [1]
      ([10, 20, 30] : List Int)
      (fun k hk => by cases hk; norm_num)
      (fun w hw => by fin_cases hw; norm_num)
      (fun m hm => by fin_cases hm; rfl)
  have h2 := write_data_chunking (some 2) true [[false, true, false]] [1]
      ([10, 20, 30] : List Int)
      (fun k hk => by cases hk; norm_num)
      (fun w hw => by fin_cases hw; norm_num)
      (fun m hm => by fin_cases hm; rfl)
  refine ⟨?_, ?_⟩
  · rw [h.1]
    rfl
  · rw [h2.2.1]
    rfl

/-! ### AppendableTable.delete, predicate path (pytables.py 4286-4330) -/

/-- Insertion of a (label, value) pair by value. -/
def insertByVal (x : Nat × Int) : List (Nat × Int) → List (Nat × Int)
  | [] => [x]
  | y :: ys => if x.2 ≤ y.2 then x :: y :: ys else y :: insertByVal x ys

/-- Sort of (label, value) pairs by value; models Series.sort_values.  The
source sorts with numpy's default quicksort argsort, which is unstable, so its
order among equal values is unspecified; the theorems below therefore consider
only value lists with pairwise-distinct entries, on which every comparison
sort — this insertion sort included — yields the same unique result. -/
def sortByVal : List (Nat × Int) → List (Nat × Int)
  | [] => []
  | x :: xs => insertByVal x (sortByVal xs)

/-- Series(values).sort_values(): pair each value with its positional label
(the Series' default integer index), then sort by value. -/
def sort_values (vs : List Int) : List (Nat × Int) := sortByVal vs.enum

/-- `list(diff[diff > 1].index)` (pytables.py 4303-4304): the original labels
sitting at the sorted positions whose value exceeds its predecessor by more
than 1, in sorted-position order. -/
def gapLabels : List (Nat × Int) → List Nat
  | a :: b :: rest => (if 1 < b.2 - a.2 then [b.1] else []) ++ gapLabels (b :: rest)
  | _ => []

/-- The groups fixups of delete (pytables.py 4306-4316). -/
def fixGroups (gaps : List Nat) (ln : Nat) : List Nat :=
  let g1 := if gaps.isEmpty then [0] else gaps
  let g2 := if g1.getLastD 0 ≠ ln then g1 ++ [ln] else g1
  if g2.headD 0 ≠ 0 then 0 :: g2 else g2

/-- The reverse-order removal loop (pytables.py 4318-4325): for consecutive
boundary pairs (g, pg), from the last pair to the first, issue one
remove_rows(value at sorted position g, value at sorted position pg-1, plus 1). -/
def opsFromGroups (valAt : Nat → Int) : List Nat → List (Int × Int)
  | g1 :: g2 :: rest =>
      opsFromGroups valAt (g2 :: rest) ++ [(valAt g1, valAt (g2 - 1) + 1)]
  | _ => []

/-- The remove_rows(start, stop) calls issued by AppendableTable.delete's
predicate path, in issue order. -/
def delete_ops (values : List Int) : List (Int × Int) :=
  let ss := sort_values values
  if ss.isEmpty then []
  else opsFromGroups (fun p => (ss.getD p (0, 0)).2) (fixGroups (gapLabels ss) ss.length)

/-- AppendableTable.delete with a predicate resolving to `values`: the issued
removal ranges and the returned count `ln`. -/
def table_delete_where (values : List Int) : List (Int × Int) × Nat :=
  (delete_ops values, values.length)

/-- Apply the issued removals to the container's rows, in order. -/
def applyRemoveOps {α : Type} (ops : List (Int × Int)) (rows : List α) : List α :=
  ops.foldl (fun rs op => remove_rows rs op.1.toNat op.2.toNat) rows

/-- Ascending insertion. -/
def insertAsc (x : Int) : List Int → List Int
  | [] => [x]
  | y :: ys => if x ≤ y then x :: y :: ys else y :: insertAsc x ys

/-- Ascending insertion sort of the resolved coordinates. -/
def sortAsc : List Int → List Int
  | [] => []
  | x :: xs => insertAsc x (sortAsc xs)

/-- Prepend a coordinate to a run partition: join the first run when the
distance is at most 1, else open a new run. -/
def runsCons (v : Int) : List (List Int) → List (List Int)
  | [] => [[v]]
  | [] :: rs => [v] :: [] :: rs
  | (w :: r) :: rs =>
      if w - v ≤ 1 then (v :: w :: r) :: rs else [v] :: (w :: r) :: rs

/-- Maximal runs of consecutive coordinates of an ascending list: a run boundary
is any gap of more than 1 in the sorted sequence. -/
def runsOf : List Int → List (List Int)
  | [] => []
  | v :: vs => runsCons v (runsOf vs)

/-- The claim's removal plan: resolve to the ascending sorted coordinate list,
partition it into maximal runs of consecutive coordinates, and issue one
remove-rows(first of run, last of run + 1) per run, visiting runs in descending
order. -/
def spec_run_ops (values : List Int) : List (Int × Int) :=
  ((runsOf (sortAsc values)).map (fun r => (r.headD 0, r.getLastD 0 + 1))).reverse

/-- `diff[diff > 1]` positions of a plain value list, offset by p. -/
def gapPositionsFrom (p : Nat) : List Int → List Nat
  | a :: b :: rest =>
      (if 1 < b - a then [p + 1] else []) ++ gapPositionsFrom (p + 1) (b :: rest)
  | _ => []

theorem sortByVal_enumFrom_sorted : ∀ (vs : List Int) (k : Nat),
    vs.Chain' (fun a b => a ≤ b) → sortByVal (vs.enumFrom k) = vs.enumFrom k
  | [], _, _ => rfl
  | v :: vs, k, h => by
      rw [List.enumFrom]
      have htail := sortByVal_enumFrom_sorted vs (k + 1) (List.Chain'.tail h)
      rw [sortByVal, htail]
      cases vs with
      | nil => rfl
      | cons w ws =>
          rw [List.enumFrom, insertByVal, if_pos]
          exact (List.chain'_cons.mp h).1

theorem gapLabels_enumFrom : ∀ (vs : List Int) (p : Nat),
    gapLabels (vs.enumFrom p) = gapPositionsFrom p vs
  | [], _ => rfl
  | [_], _ => rfl
  | a :: b :: rest, p => by
      have ih := gapLabels_enumFrom (b :: rest) (p + 1)
      rw [List.enumFrom, List.enumFrom, gapLabels, gapPositionsFrom]
      rw [show (p + 1, b) :: List.enumFrom (p + 1 + 1) rest
        = (b :: rest).enumFrom (p + 1) from rfl, ih]

theorem gapPositionsFrom_bounds : ∀ (vs : List Int) (p : Nat),
    ∀ x ∈ gapPositionsFrom p vs, p + 1 ≤ x ∧ x + 1 ≤ p + vs.length
  | [], _, x, hx => by cases hx
  | [_], _, x, hx => by cases hx
  | a :: b :: rest, p, x, hx => by
      rw [gapPositionsFrom] at hx
      rcases List.mem_append.mp hx with h1 | h1
      · have hx1 : x = p + 1 := by
          by_cases hg : 1 < b - a
          · rw [if_pos hg] at h1
            simpa using h1
          · rw [if_neg hg] at h1
            cases h1
        subst hx1
        simp only [List.length_cons]
        omega
      · have := gapPositionsFrom_bounds (b :: rest) (p + 1) x h1
        simp only [List.length_cons] at this ⊢
        omega

theorem gapPositionsFrom_shift : ∀ (vs : List Int) (p : Nat),
    gapPositionsFrom p vs = (gapPositionsFrom 0 vs).map (fun x => x + p)
  | [], _ => rfl
  | [_], _ => rfl
  | a :: b :: rest, p => by
      rw [gapPositionsFrom, gapPositionsFrom, List.map_append,
        gapPositionsFrom_shift (b :: rest) (p + 1), gapPositionsFrom_shift (b :: rest) 1,
        List.map_map]
      congr 1
      · by_cases hg : 1 < b - a
        · rw [if_pos hg, if_pos hg]
          simp [Nat.add_comm]
        · rw [if_neg hg, if_neg hg]
          rfl
      · apply List.map_congr_left
        intro x _
        simp only [Function.comp_apply]
        omega

theorem fixGroups_nil (n : Nat) (h : n ≠ 0) : fixGroups [] n = [0, n] := by
  have h0 : (0 : Nat) ≠ n := fun he => h he.symm
  simp [fixGroups, h0]

theorem fixGroups_cons (x : Nat) (g : List Nat) (n : Nat) (hx : x ≠ 0)
    (hlast : (x :: g).getLastD 0 ≠ n) :
    fixGroups (x :: g) n = 0 :: (x :: g ++ [n]) := by
  have hlast2 : (x :: g).getLast?.getD 0 ≠ n := by
    rw [← List.getLastD_eq_getLast?]
    exact hlast
  simp [fixGroups, hx, hlast2]

theorem getLastD_mem : ∀ (l : List Nat) (d : Nat), l ≠ [] → l.getLastD d ∈ l
  | [], _, h => absurd rfl h
  | x :: l, d, _ => by
      rw [List.getLastD_cons]
      cases l with
      | nil => simp
      | cons y l2 =>
          exact List.mem_cons_of_mem x (getLastD_mem (y :: l2) x (by simp))

theorem fixGroups_of_gapPositions (vs : List Int) (hne : vs ≠ []) :
    fixGroups (gapPositionsFrom 0 vs) vs.length
      = 0 :: (gapPositionsFrom 0 vs ++ [vs.length]) := by
  have hlen : 0 < vs.length := List.length_pos.mpr hne
  cases hg : gapPositionsFrom 0 vs with
  | nil =>
      rw [fixGroups_nil vs.length (by omega)]
      rfl
  | cons x g =>
      have hx := gapPositionsFrom_bounds vs 0 x (by rw [hg]; exact List.mem_cons_self x g)
      have hlast : (x :: g).getLastD 0 ≠ vs.length := by
        have hmem := getLastD_mem (x :: g) 0 (by simp)
        have hb := gapPositionsFrom_bounds vs 0 _ (by rw [hg]; exact hmem)
        omega
      exact fixGroups_cons x g vs.length (by omega) hlast

theorem getD_enumFrom_snd : ∀ (vs : List Int) (k p : Nat),
    ((vs.enumFrom k).getD p (0, 0)).2 = vs.getD p 0
  | [], _, p => by cases p <;> rfl
  | v :: vs, k, 0 => rfl
  | v :: vs, k, p + 1 => by
      rw [List.enumFrom, List.getD_cons_succ, List.getD_cons_succ]
      exact getD_enumFrom_snd vs (k + 1) p

theorem opsFromGroups_shift (v : Int) (u : List Int) : ∀ (bs : List Nat),
    (∀ y ∈ bs.tail, 1 ≤ y) →
    opsFromGroups (fun p => (v :: u).getD p 0) (bs.map (fun x => x + 1))
      = opsFromGroups (fun p => u.getD p 0) bs
  | [], _ => rfl
  | [b], _ => rfl
  | b0 :: b1 :: rest, h => by
      rw [List.map_cons, List.map_cons, opsFromGroups, opsFromGroups]
      have hb1 : 1 ≤ b1 := h b1 (List.mem_cons_self b1 rest)
      obtain ⟨k, rfl⟩ : ∃ k, b1 = k + 1 := ⟨b1 - 1, by omega⟩
      have hrec := opsFromGroups_shift v u ((k + 1) :: rest)
        (fun y hy => h y (List.mem_cons_of_mem (k + 1) hy))
      rw [List.map_cons] at hrec
      rw [hrec]
      have hx1 : ((v :: u).getD (b0 + 1) 0) = u.getD b0 0 := List.getD_cons_succ
      have hx2 : ((v :: u).getD (k + 1 + 1 - 1) 0) = u.getD (k + 1 - 1) 0 := by
        rw [show k + 1 + 1 - 1 = k + 1 from by omega, List.getD_cons_succ,
          show k + 1 - 1 = k from by omega]
      rw [hx1, hx2]

theorem runsOf_cons (v : Int) (vs : List Int) :
    runsOf (v :: vs) = runsCons v (runsOf vs) := rfl

theorem runsOf_cons_shape (v : Int) (vs : List Int) :
    ∃ r rs, runsOf (v :: vs) = (v :: r) :: rs := by
  rw [runsOf_cons]
  cases hr : runsOf vs with
  | nil => exact ⟨[], [], rfl⟩
  | cons r1 rs =>
      cases r1 with
      | nil => exact ⟨[], [] :: rs, rfl⟩
      | cons w r =>
          by_cases hg : w - v ≤ 1
          · exact ⟨w :: r, rs, by rw [runsCons, if_pos hg]⟩
          · exact ⟨[], (w :: r) :: rs, by rw [runsCons, if_neg hg]⟩


theorem opsFromGroups_eq_runs : ∀ (vs : List Int),
    vs.Chain' (fun a b => a ≤ b) → vs ≠ [] →
    opsFromGroups (fun p => vs.getD p 0) (0 :: (gapPositionsFrom 0 vs ++ [vs.length]))
      = ((runsOf vs).map (fun r => (r.headD 0, r.getLastD 0 + 1))).reverse
  | [], _, hne => absurd rfl hne
  | [v], _, _ => rfl
  | v :: w :: u, hc, _ => by
      have hc2 : (w :: u).Chain' (fun a b => a ≤ b) := List.Chain'.tail hc
      have hvw : v ≤ w := (List.chain'_cons.mp hc).1
      have IH := opsFromGroups_eq_runs (w :: u) hc2 (by simp)
      obtain ⟨r, rs, hruns⟩ := runsOf_cons_shape w u
      have hYpos : ∀ y ∈ gapPositionsFrom 0 (w :: u) ++ [(w :: u).length], 1 ≤ y := by
        intro y hy
        rcases List.mem_append.mp hy with h1 | h1
        · exact (gapPositionsFrom_bounds (w :: u) 0 y h1).1
        · have he : y = (w :: u).length := by simpa using h1
          subst he
          simp
      have hgp : gapPositionsFrom 0 (v :: w :: u) ++ [(v :: w :: u).length]
          = (if 1 < w - v then [1] else [])
            ++ (gapPositionsFrom 0 (w :: u) ++ [(w :: u).length]).map (fun x => x + 1) := by
        rw [show gapPositionsFrom 0 (v :: w :: u)
            = (if 1 < w - v then [0 + 1] else []) ++ gapPositionsFrom (0 + 1) (w :: u)
          from rfl]
        rw [show (0 : Nat) + 1 = 1 from rfl]
        rw [gapPositionsFrom_shift (w :: u) 1, List.map_append, List.append_assoc]
        congr 2
      rw [hgp]
      by_cases hg : 1 < w - v
      · -- a gap between v and w: v opens its own run, removed last
        have hg2 : ¬ (w - v ≤ 1) := by omega
        have hrunsNew : runsOf (v :: w :: u) = [v] :: (w :: r) :: rs := by
          rw [runsOf_cons, hruns, runsCons, if_neg hg2]
        rw [if_pos hg, hrunsNew]
        rw [show ([1] : List Nat) ++ (gapPositionsFrom 0 (w :: u) ++ [(w :: u).length]).map (fun x => x + 1)
            = (0 :: (gapPositionsFrom 0 (w :: u) ++ [(w :: u).length])).map (fun x => x + 1)
          from rfl]
        obtain ⟨z, Z, hZ⟩ : ∃ z Z, gapPositionsFrom 0 (w :: u) ++ [(w :: u).length] = z :: Z := by
          cases hx : gapPositionsFrom 0 (w :: u) with
          | nil => exact ⟨(w :: u).length, [], rfl⟩
          | cons a b => exact ⟨a, b ++ [(w :: u).length], rfl⟩
        rw [hZ]
        rw [show (0 :: z :: Z).map (fun x => x + 1)
            = (0 + 1) :: ((z :: Z).map (fun x => x + 1)) from rfl]
        rw [show opsFromGroups (fun p => (v :: w :: u).getD p 0)
              (0 :: (0 + 1) :: (z :: Z).map (fun x => x + 1))
            = opsFromGroups (fun p => (v :: w :: u).getD p 0)
                ((0 + 1) :: (z :: Z).map (fun x => x + 1))
              ++ [((v :: w :: u).getD 0 0, (v :: w :: u).getD (0 + 1 - 1) 0 + 1)]
          from rfl]
        rw [show ((0 + 1) : Nat) :: (z :: Z).map (fun x => x + 1)
            = (0 :: z :: Z).map (fun x => x + 1) from rfl]
        have hshift := opsFromGroups_shift v (w :: u) (0 :: z :: Z)
          (fun y hy => hYpos y (by rw [hZ]; exact hy))
        rw [hshift, show ((0 : Nat) :: z :: Z) = 0 :: (z :: Z) from rfl, ← hZ, IH, hruns]
        rw [show (List.map (fun r2 : List Int => (r2.headD 0, r2.getLastD 0 + 1))
              ([v] :: (w :: r) :: rs)).reverse
            = (List.map (fun r2 : List Int => (r2.headD 0, r2.getLastD 0 + 1))
                ((w :: r) :: rs)).reverse
              ++ [(([v] : List Int).headD 0, ([v] : List Int).getLastD 0 + 1)]
          from by rw [List.map_cons, List.reverse_cons]]
        rfl
      · -- no gap: v joins the first run of (w :: u)
        have hg2 : w - v ≤ 1 := by omega
        have hrunsNew : runsOf (v :: w :: u) = (v :: w :: r) :: rs := by
          rw [runsOf_cons, hruns, runsCons, if_pos hg2]
        rw [if_neg hg, List.nil_append, hrunsNew]
        obtain ⟨z, Z, hZ⟩ : ∃ z Z, gapPositionsFrom 0 (w :: u) ++ [(w :: u).length] = z :: Z := by
          cases hx : gapPositionsFrom 0 (w :: u) with
          | nil => exact ⟨(w :: u).length, [], rfl⟩
          | cons a b => exact ⟨a, b ++ [(w :: u).length], rfl⟩
        have hz1 : 1 ≤ z := hYpos z (by rw [hZ]; exact List.mem_cons_self z Z)
        obtain ⟨k, hk⟩ : ∃ k, z = k + 1 := ⟨z - 1, by omega⟩
        rw [hZ, hk]
        rw [show (((k + 1) :: Z : List Nat)).map (fun x => x + 1)
            = (k + 1 + 1) :: Z.map (fun x => x + 1) from rfl]
        rw [show opsFromGroups (fun p => (v :: w :: u).getD p 0)
              (0 :: (k + 1 + 1) :: Z.map (fun x => x + 1))
            = opsFromGroups (fun p => (v :: w :: u).getD p 0)
                ((k + 1 + 1) :: Z.map (fun x => x + 1))
              ++ [((v :: w :: u).getD 0 0, (v :: w :: u).getD (k + 1 + 1 - 1) 0 + 1)]
          from rfl]
        rw [show ((k + 1 + 1) : Nat) :: Z.map (fun x => x + 1)
            = ((k + 1) :: Z).map (fun x => x + 1) from rfl]
        have hshift := opsFromGroups_shift v (w :: u) ((k + 1) :: Z)
          (fun y hy => hYpos y (by
            rw [hZ, hk]
            exact List.mem_cons_of_mem (k + 1) hy))
        rw [hshift]
        rw [hZ, hk] at IH
        rw [show opsFromGroups (fun p => (w :: u).getD p 0) (0 :: (k + 1) :: Z)
            = opsFromGroups (fun p => (w :: u).getD p 0) ((k + 1) :: Z)
              ++ [((w :: u).getD 0 0, (w :: u).getD (k + 1 - 1) 0 + 1)]
          from rfl] at IH
        rw [hruns, List.map_cons, List.reverse_cons] at IH
        obtain ⟨hA, hB⟩ := List.append_inj' IH rfl
        have hBpair : ((w :: u).getD 0 0, (w :: u).getD (k + 1 - 1) 0 + 1)
            = ((w :: r).headD 0, (w :: r).getLastD 0 + 1) := by
          simpa using hB
        rw [hA, List.map_cons, List.reverse_cons]
        congr 1
        have hfn2 : (v :: w :: u).getD (k + 1 + 1 - 1) 0 = (w :: u).getD (k + 1 - 1) 0 := by
          rw [show k + 1 + 1 - 1 = k + 1 from by omega, List.getD_cons_succ,
            show k + 1 - 1 = k from by omega]
        rw [hfn2]
        have hsnd : (w :: u).getD (k + 1 - 1) 0 + 1 = (w :: r).getLastD 0 + 1 :=
          congrArg Prod.snd hBpair
        have hlast : (v :: w :: r).getLastD 0 = (w :: r).getLastD 0 := by
          rw [List.getLastD_cons, List.getLastD_cons, List.getLastD_cons]
        rw [hlast, hsnd]
        rfl

theorem sortAsc_sorted_id : ∀ (vs : List Int),
    vs.Chain' (fun a b => a ≤ b) → sortAsc vs = vs
  | [], _ => rfl
  | v :: vs, h => by
      rw [sortAsc, sortAsc_sorted_id vs (List.Chain'.tail h)]
      cases vs with
      | nil => rfl
      | cons w ws =>
          rw [insertAsc, if_pos]
          exact (List.chain'_cons.mp h).1

theorem delete_ops_sorted (vs : List Int) (h : vs.Chain' (fun a b => a ≤ b))
    (hne : vs ≠ []) :
    delete_ops vs
      = opsFromGroups (fun p => vs.getD p 0)
          (0 :: (gapPositionsFrom 0 vs ++ [vs.length])) := by
  have hsv : sort_values vs = vs.enumFrom 0 := by
    rw [sort_values, show vs.enum = vs.enumFrom 0 from rfl,
      sortByVal_enumFrom_sorted vs 0 h]
  obtain ⟨v, vs2, rfl⟩ := List.exists_cons_of_ne_nil hne
  simp only [delete_ops, hsv]
  rw [show ((v :: vs2).enumFrom 0).isEmpty = false from rfl,
    if_neg (by decide : ¬ (false = true))]
  rw [gapLabels_enumFrom (v :: vs2) 0, List.enumFrom_length]
  rw [fixGroups_of_gapPositions (v :: vs2) (by simp)]
  have hval : (fun p => (((v :: vs2).enumFrom 0).getD p (0, 0)).2)
      = (fun p => (v :: vs2).getD p 0) := by
    funext p
    exact getD_enumFrom_snd (v :: vs2) 0 p
  rw [hval]

/-- C1 (amended): for every populated table and non-empty predicate whose
resolved coordinate list is strictly ascending — sorted and duplicate-free,
always the case for expression predicates and boolean masks, which produce
distinct sorted row positions, while an explicit integer coordinate list is
used exactly as passed and so must be supplied sorted and distinct (with
duplicates the outcome depends on the unstable quicksort's tie order, and with
unsorted input on the label/position confusion of the counterexample) — delete
resolves the predicate to the ascending coordinate list, partitions it into
maximal runs of consecutive coordinates, issues exactly one contiguous
remove-rows(start, stop) operation per run visiting the runs in descending
order, and returns the total number of matching coordinates; in particular
deleting coordinates {1,2,3,7,8,20} from a 100-row table leaves exactly 94
rows whose relative order is preserved. -/
theorem delete_where_runs (values : List Int)
    (hasc : values.Chain' (fun a b => a < b)) :
    table_delete_where values = (spec_run_ops values, values.length)
    ∧ applyRemoveOps (delete_ops [1, 2, 3, 7, 8, 20])
        ((List.range 100).map (fun n => (n : Int)))
      = ((List.range 100).map (fun n => (n : Int))).filter
          (fun x => decide (x ∉ ([1, 2, 3, 7, 8, 20] : List Int)))
    ∧ (applyRemoveOps (delete_ops [1, 2, 3, 7, 8, 20])
        ((List.range 100).map (fun n => (n : Int)))).length = 94 := by
  refine ⟨?_, by decide, by decide⟩
  rcases eq_or_ne values [] with rfl | hne
  · rfl
  · have hle : values.Chain' (fun a b => a ≤ b) :=
      List.Chain'.imp (fun a b h => le_of_lt h) hasc
    have h1 := delete_ops_sorted values hle hne
    have h2 := opsFromGroups_eq_runs values hle hne
    rw [table_delete_where, h1, h2, spec_run_ops, sortAsc_sorted_id values hle]

theorem delete_where_runs_witness :
    table_delete_where [1, 2, 3, 7, 8, 20] = (spec_run_ops [1, 2, 3, 7, 8, 20], 6) :=
  (delete_where_runs [1, 2, 3, 7, 8, 20] (by norm_num [List.chain'_cons])).1

/-- C1 counterexample: for the coordinate predicate [3, 1] — two matching
coordinates whose resolved list is not ascending — delete issues the single
operation remove_rows(1, 4) spanning the gap (removing the non-matching row 2,
leaving 97 of 100 rows) instead of one operation per run of the sorted list
[1, 3] in descending order (which would leave 98 rows), while still returning
2; the labels of the sorted series are used as run-boundary positions. -/
theorem delete_where_unsorted_counterexample :
    table_delete_where [3, 1] = ([(1, 4)], 2)
    ∧ spec_run_ops [3, 1] = [(3, 4), (1, 2)]
    ∧ delete_ops [3, 1] ≠ spec_run_ops [3, 1]
    ∧ (applyRemoveOps (delete_ops [3, 1])
        ((List.range 100).map (fun n => (n : Int)))).length = 97 := by
  exact ⟨by decide, by decide, by decide, by decide⟩
